import Mathlib

/-!
Verification of the algorithmic core of the John Snow dashboard repository:
the density-estimation and raster-alignment operations described in the
specification, and the vector-loading / nearest-pump analysis implemented in
`johnsnow_dashboard_app.py`.

Real-valued operations (Gaussian kernel sums, trigonometric rotation,
Euclidean distances) are embedded over `ℝ`; the raster normalization and the
tabular death-count pipeline are embedded over `ℚ`/`ℤ` and are executable.
-/

/-! ## Generic list helpers -/

/-- Concatenation of a list of lists (row-major flattening of a grid). -/
def concatAll {α : Type} : List (List α) → List α
  | [] => []
  | r :: rs => r ++ concatAll rs

theorem mem_concatAll {α : Type} {x : α} {ls : List (List α)} :
    x ∈ concatAll ls ↔ ∃ l ∈ ls, x ∈ l := by
  induction ls with
  | nil => simp [concatAll]
  | cons r rs ih => simp [concatAll, ih]

theorem concatAll_map_map {α β : Type} (f : α → β) (ls : List (List α)) :
    concatAll (ls.map (List.map f)) = (concatAll ls).map f := by
  induction ls with
  | nil => rfl
  | cons r rs ih => simp [concatAll, ih]

/-- Maximum of a list, with default `d` for the empty list. -/
def listMaxD {α : Type} [LinearOrder α] (d : α) : List α → α
  | [] => d
  | x :: xs => xs.foldl max x

/-- Minimum of a list, with default `d` for the empty list. -/
def listMinD {α : Type} [LinearOrder α] (d : α) : List α → α
  | [] => d
  | x :: xs => xs.foldl min x

theorem foldl_max_init_le {α : Type} [LinearOrder α] (l : List α) (a : α) :
    a ≤ l.foldl max a := by
  induction l generalizing a with
  | nil => exact le_refl a
  | cons x xs ih => exact le_trans (le_max_left a x) (ih (max a x))

theorem le_foldl_max_of_mem {α : Type} [LinearOrder α] {x : α} {l : List α}
    (h : x ∈ l) (a : α) : x ≤ l.foldl max a := by
  induction l generalizing a with
  | nil => cases h
  | cons y ys ih =>
      rcases List.mem_cons.mp h with h1 | h1
      · subst h1
        exact le_trans (le_max_right a x) (foldl_max_init_le ys (max a x))
      · exact ih h1 (max a y)

theorem foldl_max_mem {α : Type} [LinearOrder α] (l : List α) (a : α) :
    l.foldl max a ∈ a :: l := by
  induction l generalizing a with
  | nil => simp [List.foldl]
  | cons x xs ih =>
      have h := ih (max a x)
      rcases List.mem_cons.mp h with h1 | h1
      · rcases max_choice a x with h2 | h2
        · simp only [List.foldl]
          rw [h1, h2]
          exact List.mem_cons_self a _
        · simp only [List.foldl]
          rw [h1, h2]
          exact List.mem_cons_of_mem a (List.mem_cons_self x xs)
      · exact List.mem_cons_of_mem a (List.mem_cons_of_mem x h1)

theorem le_listMaxD {α : Type} [LinearOrder α] {x : α} {l : List α}
    (h : x ∈ l) (d : α) : x ≤ listMaxD d l := by
  cases l with
  | nil => cases h
  | cons y ys =>
      rcases List.mem_cons.mp h with h1 | h1
      · subst h1
        exact foldl_max_init_le ys x
      · exact le_foldl_max_of_mem h1 y

theorem listMaxD_mem {α : Type} [LinearOrder α] {l : List α}
    (h : l ≠ []) (d : α) : listMaxD d l ∈ l := by
  cases l with
  | nil => exact absurd rfl h
  | cons y ys => exact foldl_max_mem ys y

theorem foldl_min_le_init {α : Type} [LinearOrder α] (l : List α) (a : α) :
    l.foldl min a ≤ a := by
  induction l generalizing a with
  | nil => exact le_refl a
  | cons x xs ih => exact le_trans (ih (min a x)) (min_le_left a x)

theorem foldl_min_le_of_mem {α : Type} [LinearOrder α] {x : α} {l : List α}
    (h : x ∈ l) (a : α) : l.foldl min a ≤ x := by
  induction l generalizing a with
  | nil => cases h
  | cons y ys ih =>
      rcases List.mem_cons.mp h with h1 | h1
      · subst h1
        exact le_trans (foldl_min_le_init ys (min a x)) (min_le_right a x)
      · exact ih h1 (min a y)

theorem foldl_min_mem {α : Type} [LinearOrder α] (l : List α) (a : α) :
    l.foldl min a ∈ a :: l := by
  induction l generalizing a with
  | nil => simp [List.foldl]
  | cons x xs ih =>
      have h := ih (min a x)
      rcases List.mem_cons.mp h with h1 | h1
      · rcases min_choice a x with h2 | h2
        · simp only [List.foldl]
          rw [h1, h2]
          exact List.mem_cons_self a _
        · simp only [List.foldl]
          rw [h1, h2]
          exact List.mem_cons_of_mem a (List.mem_cons_self x xs)
      · exact List.mem_cons_of_mem a (List.mem_cons_of_mem x h1)

theorem listMinD_le {α : Type} [LinearOrder α] {x : α} {l : List α}
    (h : x ∈ l) (d : α) : listMinD d l ≤ x := by
  cases l with
  | nil => cases h
  | cons y ys =>
      rcases List.mem_cons.mp h with h1 | h1
      · subst h1
        exact foldl_min_le_init ys x
      · exact foldl_min_le_of_mem h1 y

theorem listMinD_mem {α : Type} [LinearOrder α] {l : List α}
    (h : l ≠ []) (d : α) : listMinD d l ∈ l := by
  cases l with
  | nil => exact absurd rfl h
  | cons y ys => exact foldl_min_mem ys y

/-! ## Density estimator (Modelled from the spec: `estimate_density`, §4.2) -/

/-- A 2D location with a non-negative event-count weight (spec §3,
`WeightedPoint`). -/
structure WeightedPoint where
  x : ℝ
  y : ℝ
  w : ℝ

/-- Error raised by `estimate_density` on an empty point set (spec §7). -/
inductive EmptyInputError where
  | emptyInput

/-- Modelled from the spec: the unnormalized weighted isotropic Gaussian
kernel sum accumulated at one grid sample location (spec §4.2): the code
implementing `estimate_density` is not among the provided source files, only
its specification is. -/
noncomputable def kernelSum (pts : List WeightedPoint) (gx gy bw : ℝ) : ℝ :=
  (pts.map (fun p => p.w * Real.exp (-(((gx - p.x) ^ 2 + (gy - p.y) ^ 2) / (2 * bw ^ 2))))).sum

/-- Modelled from the spec: the i-th of `res` evenly spaced sample
coordinates spanning the interval from `lo` to `hi`. -/
noncomputable def gridCoord (lo hi : ℝ) (res i : ℕ) : ℝ :=
  lo + (hi - lo) * i / ((res - 1 : ℕ) : ℝ)

/-- Modelled from the spec: the raw (pre-normalization) kernel-sum grid over
the bounding rectangle of the point set `p0 :: ps`. -/
noncomputable def rawDensityGrid (p0 : WeightedPoint) (ps : List WeightedPoint)
    (res : ℕ) (bw : ℝ) : List (List ℝ) :=
  let pts := p0 :: ps
  let minx := ps.foldl (fun a q => min a q.x) p0.x
  let maxx := ps.foldl (fun a q => max a q.x) p0.x
  let miny := ps.foldl (fun a q => min a q.y) p0.y
  let maxy := ps.foldl (fun a q => max a q.y) p0.y
  (List.range res).map (fun j =>
    (List.range res).map (fun i =>
      kernelSum pts (gridCoord minx maxx res i) (gridCoord miny maxy res j) bw))

/-- Modelled from the spec: `estimate_density` (spec §4.2). Zero points
signal `EmptyInputError`; otherwise the kernel-sum grid is divided by its
maximum value, guarding the all-zero grid (returned unchanged). The code
implementing this operation is not among the provided source files. -/
noncomputable def estimate_density (points : List WeightedPoint) (res : ℕ) (bw : ℝ) :
    Except EmptyInputError (List (List ℝ)) :=
  match points with
  | [] => .error .emptyInput
  | p :: ps =>
      let raw := rawDensityGrid p ps res bw
      let m := listMaxD 0 (concatAll raw)
      if m = 0 then .ok raw else .ok (raw.map (List.map (fun v => v / m)))

theorem kernelSum_pos {pts : List WeightedPoint} (gx gy bw : ℝ)
    (hw : ∀ p ∈ pts, 0 ≤ p.w) (hpos : ∃ p ∈ pts, 0 < p.w) :
    0 < kernelSum pts gx gy bw := by
  obtain ⟨p, hp, hpw⟩ := hpos
  have hterm : 0 < p.w * Real.exp (-(((gx - p.x) ^ 2 + (gy - p.y) ^ 2) / (2 * bw ^ 2))) :=
    mul_pos hpw (Real.exp_pos _)
  have hmem : p.w * Real.exp (-(((gx - p.x) ^ 2 + (gy - p.y) ^ 2) / (2 * bw ^ 2))) ∈
      pts.map (fun q => q.w * Real.exp (-(((gx - q.x) ^ 2 + (gy - q.y) ^ 2) / (2 * bw ^ 2)))) :=
    List.mem_map_of_mem _ hp
  have hnn : ∀ t ∈ pts.map (fun q =>
      q.w * Real.exp (-(((gx - q.x) ^ 2 + (gy - q.y) ^ 2) / (2 * bw ^ 2)))), 0 ≤ t := by
    intro t ht
    obtain ⟨q, hq, rfl⟩ := List.mem_map.mp ht
    exact mul_nonneg (hw q hq) (Real.exp_pos _).le
  exact lt_of_lt_of_le hterm (List.single_le_sum hnn _ hmem)

theorem kernelSum_zero {pts : List WeightedPoint} (gx gy bw : ℝ)
    (hz : ∀ p ∈ pts, p.w = 0) : kernelSum pts gx gy bw = 0 := by
  apply List.sum_eq_zero
  intro t ht
  obtain ⟨q, hq, rfl⟩ := List.mem_map.mp ht
  rw [hz q hq, zero_mul]

theorem mem_rawDensityGrid {p0 : WeightedPoint} {ps : List WeightedPoint}
    {res : ℕ} {bw : ℝ} {v : ℝ} (h : v ∈ concatAll (rawDensityGrid p0 ps res bw)) :
    ∃ gx gy, v = kernelSum (p0 :: ps) gx gy bw := by
  obtain ⟨row, hrow, hv⟩ := mem_concatAll.mp h
  simp only [rawDensityGrid, List.mem_map, List.mem_range] at hrow
  obtain ⟨j, _, rfl⟩ := hrow
  simp only [List.mem_map, List.mem_range] at hv
  obtain ⟨i, _, rfl⟩ := hv
  exact ⟨_, _, rfl⟩

theorem rawDensityGrid_cell_mem (p0 : WeightedPoint) (ps : List WeightedPoint)
    {res : ℕ} (bw : ℝ) (hres : 0 < res) :
    ∃ v, v ∈ concatAll (rawDensityGrid p0 ps res bw) := by
  have h0 : (0 : ℕ) ∈ List.range res := List.mem_range.mpr hres
  simp only [rawDensityGrid, mem_concatAll, List.mem_map, List.mem_range]
  exact ⟨_, _, ⟨0, hres, rfl⟩, List.mem_map_of_mem _ h0⟩

theorem listMaxD_map_div_self {l : List ℝ} (hl : l ≠ [])
    (hm : 0 < listMaxD 0 l) :
    listMaxD 0 (l.map (fun v => v / listMaxD 0 l)) = 1 := by
  have hmlne : l.map (fun v => v / listMaxD 0 l) ≠ [] := by
    simpa using hl
  apply le_antisymm
  · have hmem := listMaxD_mem hmlne (0 : ℝ)
    obtain ⟨v, hv, hveq⟩ := List.mem_map.mp hmem
    rw [← hveq]
    exact (div_le_one hm).mpr (le_listMaxD hv 0)
  · have h1 : (1 : ℝ) ∈ l.map (fun v => v / listMaxD 0 l) := by
      have := listMaxD_mem hl (0 : ℝ)
      refine List.mem_map.mpr ⟨listMaxD 0 l, this, ?_⟩
      exact div_self (ne_of_gt hm)
    exact le_listMaxD h1 0

/-- C1: for every non-empty weighted point set with non-negative weights and
at least one positive weight, and positive grid resolution and bandwidth,
`estimate_density` returns a grid whose cells are all non-negative and whose
maximum cell value is exactly 1, because the kernel-sum grid is divided by
its maximum value. -/
theorem estimate_density_normalized_range (pts : List WeightedPoint) (res : ℕ) (bw : ℝ)
    (hne : pts ≠ []) (hres : 0 < res) (hbw : 0 < bw)
    (hw : ∀ p ∈ pts, 0 ≤ p.w) (hpos : ∃ p ∈ pts, 0 < p.w) :
    ∃ g, estimate_density pts res bw = Except.ok g ∧
      (∀ row ∈ g, ∀ v ∈ row, 0 ≤ v) ∧ listMaxD 0 (concatAll g) = 1 := by
  cases pts with
  | nil => exact absurd rfl hne
  | cons p ps =>
      have hallpos : ∀ v ∈ concatAll (rawDensityGrid p ps res bw), 0 < v := by
        intro v hv
        obtain ⟨gx, gy, rfl⟩ := mem_rawDensityGrid hv
        exact kernelSum_pos gx gy bw hw hpos
      obtain ⟨v0, hv0⟩ := rawDensityGrid_cell_mem p ps bw hres
      have hne2 : concatAll (rawDensityGrid p ps res bw) ≠ [] := List.ne_nil_of_mem hv0
      have hmpos : 0 < listMaxD 0 (concatAll (rawDensityGrid p ps res bw)) :=
        hallpos _ (listMaxD_mem hne2 (0 : ℝ))
      have hm0 : listMaxD 0 (concatAll (rawDensityGrid p ps res bw)) ≠ 0 := ne_of_gt hmpos
      refine ⟨(rawDensityGrid p ps res bw).map
        (List.map (fun v => v / listMaxD 0 (concatAll (rawDensityGrid p ps res bw)))), ?_, ?_, ?_⟩
      · simp only [estimate_density]
        rw [if_neg hm0]
      · intro row hrow v hv
        obtain ⟨row0, hrow0, rfl⟩ := List.mem_map.mp hrow
        obtain ⟨v1, hv1, rfl⟩ := List.mem_map.mp hv
        have hv1m : v1 ∈ concatAll (rawDensityGrid p ps res bw) :=
          mem_concatAll.mpr ⟨row0, hrow0, hv1⟩
        exact div_nonneg (hallpos _ hv1m).le hmpos.le
      · rw [concatAll_map_map]
        exact listMaxD_map_div_self hne2 hmpos

/-- A concrete one-point input for the density estimator. -/
def wpts0 : List WeightedPoint := [⟨0, 0, 1⟩]

/-- Witness for C1: the single point (0, 0) with weight 1, a 1-by-1 grid and
bandwidth 1 satisfy the hypotheses and the normalized-range conclusion. -/
theorem estimate_density_normalized_range_witness :
    wpts0 ≠ [] ∧ ∃ g, estimate_density wpts0 1 1 = Except.ok g ∧
      (∀ row ∈ g, ∀ v ∈ row, 0 ≤ v) ∧ listMaxD 0 (concatAll g) = 1 := by
  constructor
  · simp [wpts0]
  · exact estimate_density_normalized_range wpts0 1 1 (by simp [wpts0]) one_pos one_pos
      (by
        intro p hp
        simp only [wpts0, List.mem_singleton] at hp
        subst hp
        exact zero_le_one)
      ⟨⟨0, 0, 1⟩, by simp [wpts0], one_pos⟩

/-- C5: `estimate_density` signals `EmptyInputError` exactly on the empty
point set; and when every weight is zero (so the kernel-sum grid is
all-zero), the division by the grid maximum is guarded and the all-zero grid
is returned rather than an error. -/
theorem estimate_density_empty_and_zero_guard (pts : List WeightedPoint) (res : ℕ) (bw : ℝ) :
    ((∃ e, estimate_density pts res bw = Except.error e) ↔ pts = []) ∧
    ((∀ p ∈ pts, p.w = 0) → ∀ g, estimate_density pts res bw = Except.ok g →
      ∀ row ∈ g, ∀ v ∈ row, v = 0) := by
  constructor
  · constructor
    · rintro ⟨e, he⟩
      cases pts with
      | nil => rfl
      | cons p ps =>
          simp only [estimate_density] at he
          by_cases hm : listMaxD 0 (concatAll (rawDensityGrid p ps res bw)) = 0
          · rw [if_pos hm] at he
            exact Except.noConfusion he
          · rw [if_neg hm] at he
            exact Except.noConfusion he
    · rintro rfl
      exact ⟨.emptyInput, rfl⟩
  · intro hz g hg row hrow v hv
    cases pts with
    | nil => simp [estimate_density] at hg
    | cons p ps =>
        have hraw0 : ∀ u ∈ concatAll (rawDensityGrid p ps res bw), u = 0 := by
          intro u hu
          obtain ⟨gx, gy, rfl⟩ := mem_rawDensityGrid hu
          exact kernelSum_zero gx gy bw hz
        have hm : listMaxD 0 (concatAll (rawDensityGrid p ps res bw)) = 0 := by
          rcases eq_or_ne (concatAll (rawDensityGrid p ps res bw)) [] with hnil | hnil
          · rw [hnil]
            rfl
          · exact hraw0 _ (listMaxD_mem hnil 0)
        simp only [estimate_density] at hg
        rw [if_pos hm] at hg
        have hge : rawDensityGrid p ps res bw = g := by
          simpa using hg
        subst hge
        exact hraw0 v (mem_concatAll.mpr ⟨row, hrow, hv⟩)

/-! ## Raster aligner: alignment transform (Modelled from the spec: `apply_alignment`, §4.1) -/

/-- An axis-aligned rectangle in geographic coordinates (spec §3,
`GeoBounds`). Valid when `south < north` and `west < east`. -/
@[ext]
structure GeoBounds where
  south : ℝ
  west : ℝ
  north : ℝ
  east : ℝ

/-- Degrees to radians. -/
noncomputable def deg2rad (d : ℝ) : ℝ := d * Real.pi / 180

/-- x-coordinate of the point `(x, y)` rotated counter-clockwise by `th`
radians about the center `(cx, cy)` (standard 2D rotation matrix). -/
noncomputable def rotX (cx cy th x y : ℝ) : ℝ :=
  cx + (x - cx) * Real.cos th - (y - cy) * Real.sin th

/-- y-coordinate of the point `(x, y)` rotated counter-clockwise by `th`
radians about the center `(cx, cy)`. -/
noncomputable def rotY (cx cy th x y : ℝ) : ℝ :=
  cy + (x - cx) * Real.sin th + (y - cy) * Real.cos th

/-- Modelled from the spec: uniform scaling of the bounds about its own
center followed by translation (spec §4.1, steps 1 and 2 of
`apply_alignment`); the code implementing `apply_alignment` is not among the
provided source files. -/
noncomputable def scaledShifted (b : GeoBounds) (sx sy sc : ℝ) : GeoBounds :=
  { south := (b.south + b.north) / 2 + (b.south - (b.south + b.north) / 2) * sc + sy
    west := (b.west + b.east) / 2 + (b.west - (b.west + b.east) / 2) * sc + sx
    north := (b.south + b.north) / 2 + (b.north - (b.south + b.north) / 2) * sc + sy
    east := (b.west + b.east) / 2 + (b.east - (b.west + b.east) / 2) * sc + sx }

/-- Modelled from the spec: rotate the four corners of `b` about its center
by `th` radians and take the componentwise min/max of the rotated corners as
the new axis-aligned bounds (spec §4.1, step 3 of `apply_alignment`). -/
noncomputable def rotateBounds (b : GeoBounds) (th : ℝ) : GeoBounds :=
  let cx := (b.west + b.east) / 2
  let cy := (b.south + b.north) / 2
  { south := min (min (rotY cx cy th b.west b.south) (rotY cx cy th b.east b.south))
      (min (rotY cx cy th b.east b.north) (rotY cx cy th b.west b.north))
    west := min (min (rotX cx cy th b.west b.south) (rotX cx cy th b.east b.south))
      (min (rotX cx cy th b.east b.north) (rotX cx cy th b.west b.north))
    north := max (max (rotY cx cy th b.west b.south) (rotY cx cy th b.east b.south))
      (max (rotY cx cy th b.east b.north) (rotY cx cy th b.west b.north))
    east := max (max (rotX cx cy th b.west b.south) (rotX cx cy th b.east b.south))
      (max (rotX cx cy th b.east b.north) (rotX cx cy th b.west b.north)) }

/-- Modelled from the spec: `apply_alignment` (spec §4.1) in the fixed order
scale about center, shift, rotate corners about the center and re-bound. -/
noncomputable def apply_alignment (b : GeoBounds) (sx sy sc rd : ℝ) : GeoBounds :=
  rotateBounds (scaledShifted b sx sy sc) (deg2rad rd)

/-- Signed area of the axis-aligned bounds rectangle. -/
noncomputable def boundsArea (b : GeoBounds) : ℝ :=
  (b.east - b.west) * (b.north - b.south)

theorem scaledShifted_id (b : GeoBounds) : scaledShifted b 0 0 1 = b := by
  obtain ⟨s, w, n, e⟩ := b
  simp only [scaledShifted, GeoBounds.mk.injEq]
  refine ⟨by ring, by ring, by ring, by ring⟩

theorem rotX_zero (cx cy x y : ℝ) : rotX cx cy 0 x y = x := by
  simp [rotX]

theorem rotY_zero (cx cy x y : ℝ) : rotY cx cy 0 x y = y := by
  simp [rotY]

theorem min_min_swap_eq (a b : ℝ) (h : a ≤ b) : min (min a b) (min b a) = a := by
  rw [min_comm b a, min_self, min_eq_left h]

theorem max_max_swap_eq (a b : ℝ) (h : a ≤ b) : max (max a b) (max b a) = b := by
  rw [max_comm b a, max_self, max_eq_right h]

theorem min_min_pair_eq (a b : ℝ) (h : a ≤ b) : min (min a a) (min b b) = a := by
  rw [min_self, min_self, min_eq_left h]

theorem max_max_pair_eq (a b : ℝ) (h : a ≤ b) : max (max a a) (max b b) = b := by
  rw [max_self, max_self, max_eq_right h]

theorem rotateBounds_zero (b : GeoBounds) (hsn : b.south ≤ b.north)
    (hwe : b.west ≤ b.east) : rotateBounds b 0 = b := by
  obtain ⟨s, w, n, e⟩ := b
  simp only [rotateBounds, rotX_zero, rotY_zero, GeoBounds.mk.injEq]
  exact ⟨min_min_pair_eq s n hsn, min_min_swap_eq w e hwe,
    max_max_pair_eq s n hsn, max_max_swap_eq w e hwe⟩

/-- C3: `apply_alignment` is the identity at the neutral parameters: for
every valid GeoBounds (south < north, west < east), zero shift, unit scale
and zero rotation return the bounds unchanged. -/
theorem apply_alignment_identity (b : GeoBounds)
    (hsn : b.south < b.north) (hwe : b.west < b.east) :
    apply_alignment b 0 0 1 0 = b := by
  rw [apply_alignment, scaledShifted_id]
  have hz : deg2rad 0 = 0 := by simp [deg2rad]
  rw [hz]
  exact rotateBounds_zero b hsn.le hwe.le

/-- A concrete valid GeoBounds (unit square). -/
def geoB0 : GeoBounds := ⟨0, 0, 1, 1⟩

/-- Witness for C3: the unit square is valid and is returned unchanged at
the neutral alignment parameters. -/
theorem apply_alignment_identity_witness : apply_alignment geoB0 0 0 1 0 = geoB0 :=
  apply_alignment_identity geoB0 one_pos one_pos

set_option maxHeartbeats 1000000 in
/-- C7: rotating a valid non-square bounds rectangle by 45 degrees (zero
shift, unit scale) strictly increases the area of the axis-aligned bounding
box of the rotated corners. -/
theorem apply_alignment_rot45_area_growth (b : GeoBounds)
    (hsn : b.south < b.north) (hwe : b.west < b.east)
    (hneq : b.east - b.west ≠ b.north - b.south) :
    boundsArea b < boundsArea (apply_alignment b 0 0 1 45) := by
  rw [apply_alignment, scaledShifted_id]
  obtain ⟨s, w, n, e⟩ := b
  simp only at hsn hwe hneq
  have hth : deg2rad 45 = Real.pi / 4 := by
    rw [deg2rad]
    ring
  have hc : Real.cos (deg2rad 45) = Real.sqrt 2 / 2 := by
    rw [hth, Real.cos_pi_div_four]
  have hs : Real.sin (deg2rad 45) = Real.sqrt 2 / 2 := by
    rw [hth, Real.sin_pi_div_four]
  have hr : 0 < Real.sqrt 2 / 2 :=
    div_pos (Real.sqrt_pos.mpr (by norm_num)) (by norm_num)
  have hr2 : Real.sqrt 2 / 2 * (Real.sqrt 2 / 2) = 1 / 2 := by
    have h2 : Real.sqrt 2 * Real.sqrt 2 = 2 := Real.mul_self_sqrt (by norm_num)
    rw [div_mul_div_comm, h2]
    norm_num
  simp only [rotateBounds, boundsArea]
  set cx := (w + e) / 2 with hcx
  set cy := (s + n) / 2 with hcy
  set xA := rotX cx cy (deg2rad 45) w s with hxA
  set xB := rotX cx cy (deg2rad 45) e s with hxB
  set xC := rotX cx cy (deg2rad 45) e n with hxC
  set xD := rotX cx cy (deg2rad 45) w n with hxD
  set yA := rotY cx cy (deg2rad 45) w s with hyA
  set yB := rotY cx cy (deg2rad 45) e s with hyB
  set yC := rotY cx cy (deg2rad 45) e n with hyC
  set yD := rotY cx cy (deg2rad 45) w n with hyD
  have hW : min (min xA xB) (min xC xD) ≤ xD :=
    le_trans (min_le_right _ _) (min_le_right _ _)
  have hE : xB ≤ max (max xA xB) (max xC xD) :=
    le_trans (le_max_right xA xB) (le_max_left _ _)
  have hS : min (min yA yB) (min yC yD) ≤ yA :=
    le_trans (min_le_left _ _) (min_le_left _ _)
  have hN : yC ≤ max (max yA yB) (max yC yD) :=
    le_trans (le_max_left yC yD) (le_max_right _ _)
  have hxBD : xB - xD = Real.sqrt 2 / 2 * ((e - w) + (n - s)) := by
    rw [hxB, hxD]
    simp only [rotX, hc, hs]
    ring
  have hyCA : yC - yA = Real.sqrt 2 / 2 * ((e - w) + (n - s)) := by
    rw [hyC, hyA]
    simp only [rotY, hc, hs]
    ring
  have hT : 0 < (e - w) + (n - s) := by linarith
  have hpos : 0 < Real.sqrt 2 / 2 * ((e - w) + (n - s)) := mul_pos hr hT
  have h1 : Real.sqrt 2 / 2 * ((e - w) + (n - s)) ≤
      max (max xA xB) (max xC xD) - min (min xA xB) (min xC xD) := by
    linarith [hW, hE, hxBD]
  have h2 : Real.sqrt 2 / 2 * ((e - w) + (n - s)) ≤
      max (max yA yB) (max yC yD) - min (min yA yB) (min yC yD) := by
    linarith [hS, hN, hyCA]
  have h3 : Real.sqrt 2 / 2 * ((e - w) + (n - s)) * (Real.sqrt 2 / 2 * ((e - w) + (n - s))) ≤
      (max (max xA xB) (max xC xD) - min (min xA xB) (min xC xD)) *
        (max (max yA yB) (max yC yD) - min (min yA yB) (min yC yD)) :=
    mul_le_mul h1 h2 hpos.le (le_trans hpos.le h1)
  have h5 : (e - w) - (n - s) ≠ 0 := sub_ne_zero.mpr hneq
  have h4 : 0 < ((e - w) - (n - s)) ^ 2 := by
    rcases h5.lt_or_lt with h6 | h6
    · nlinarith
    · nlinarith
  nlinarith [h3, h4, hr2]

/-- A concrete valid non-square GeoBounds (2 wide, 1 tall). -/
def geoB1 : GeoBounds := ⟨0, 0, 1, 2⟩

/-- Witness for C7: the 2-by-1 rectangle is valid and non-square, and its
45-degree rotated bounding box has strictly greater area. -/
theorem apply_alignment_rot45_area_growth_witness :
    boundsArea geoB1 < boundsArea (apply_alignment geoB1 0 0 1 45) :=
  apply_alignment_rot45_area_growth geoB1 one_pos two_pos
    (by simp [geoB1])

/-! ## Raster aligner: RGB normalization (Modelled from the spec: `normalize_to_rgb`, §4.1) -/

/-- A single raster band: a 2D array of rational samples, shape (H, W). -/
abbrev Band (H W : ℕ) := Fin H → Fin W → ℚ

/-- A single 8-bit output channel, values in 0..255. -/
abbrev ByteBand (H W : ℕ) := Fin H → Fin W → ℕ

/-- Error raised when the raster has no bands or no dynamic range
(spec §7). -/
inductive DegenerateImageError where
  | degenerate

/-- Modelled from the spec: band selection of `normalize_to_rgb` (spec §4.1):
one band is triplicated into three channels, otherwise the first three bands
in input order are kept; the code implementing `normalize_to_rgb` is not
among the provided source files. -/
def selectBands {H W : ℕ} : List (Band H W) → List (Band H W)
  | [b] => [b, b, b]
  | bs => bs.take 3

/-- All samples of one band, in row-major order. -/
def bandSamples {H W : ℕ} (b : Band H W) : List ℚ :=
  concatAll ((List.finRange H).map (fun i => (List.finRange W).map (fun j => b i j)))

/-- All samples of a list of bands combined (the union over the retained
band set, from which the single global min and max are computed). -/
def allSamples {H W : ℕ} (bs : List (Band H W)) : List ℚ :=
  concatAll (bs.map bandSamples)

/-- Modelled from the spec: map a sample `v` to
`round(255 * (v - lo) / (hi - lo))`, clamped to [0, 255], as an 8-bit
unsigned integer (spec §4.1). -/
def scale255 (lo hi v : ℚ) : ℕ :=
  (max 0 (min 255 (round (255 * (v - lo) / (hi - lo))))).toNat

/-- The normalized RGB image: every retained band scaled by the single
global min and max over all retained samples combined. -/
def rgbOut {H W : ℕ} (bs : List (Band H W)) : List (ByteBand H W) :=
  bs.map (fun b => fun i j =>
    scale255 (listMinD 0 (allSamples bs)) (listMaxD 0 (allSamples bs)) (b i j))

/-- Modelled from the spec: `normalize_to_rgb` (spec §4.1). No bands, or a
retained sample set with `max = min`, signal `DegenerateImageError`;
otherwise the retained bands are min-max scaled to 0..255. -/
def normalize_to_rgb {H W : ℕ} (bands : List (Band H W)) :
    Except DegenerateImageError (List (ByteBand H W)) :=
  match selectBands bands with
  | [] => Except.error DegenerateImageError.degenerate
  | b :: bs =>
      if listMinD 0 (allSamples (b :: bs)) = listMaxD 0 (allSamples (b :: bs))
      then Except.error DegenerateImageError.degenerate
      else Except.ok (rgbOut (b :: bs))

theorem mem_allSamples {H W : ℕ} {q : ℚ} {bs : List (Band H W)} :
    q ∈ allSamples bs ↔ ∃ b ∈ bs, ∃ i j, b i j = q := by
  simp [allSamples, bandSamples, mem_concatAll]

/-- C2: band-count contract of `normalize_to_rgb`: a single band yields an
image whose three channels are identical, and with at least three bands the
output depends only on the first three bands in input order. -/
theorem normalize_to_rgb_band_contract {H W : ℕ} (b : Band H W)
    (bands : List (Band H W)) (h3 : 3 ≤ bands.length) :
    (∀ img, normalize_to_rgb [b] = Except.ok img → ∃ c, img = [c, c, c]) ∧
    normalize_to_rgb bands = normalize_to_rgb (bands.take 3) := by
  constructor
  · intro img himg
    simp only [normalize_to_rgb, selectBands] at himg
    by_cases hq : listMinD 0 (allSamples [b, b, b]) = listMaxD 0 (allSamples [b, b, b])
    · rw [if_pos hq] at himg
      exact Except.noConfusion himg
    · rw [if_neg hq] at himg
      have himg2 : rgbOut [b, b, b] = img := by
        simpa using himg
      refine ⟨fun i j =>
        scale255 (listMinD 0 (allSamples [b, b, b])) (listMaxD 0 (allSamples [b, b, b])) (b i j),
        ?_⟩
      rw [← himg2]
      rfl
  · rcases bands with _ | ⟨b1, _ | ⟨b2, _ | ⟨b3, rest⟩⟩⟩
    · simp at h3
    · simp at h3
    · simp at h3
    · rfl

/-- A concrete non-constant band of shape (1, 2): samples 0 and 1. -/
def bandA : Band 1 2 := fun _ j => ((j : ℕ) : ℚ)

/-- A concrete list of four bands. -/
def bands4 : List (Band 1 2) := [bandA, bandA, bandA, bandA]

/-- Witness for C2: four concrete bands satisfy the length hypothesis, and
the output of `normalize_to_rgb` on them equals its output on their first
three; the single-band triplication conclusion holds for the concrete band. -/
theorem normalize_to_rgb_band_contract_witness :
    (∀ img, normalize_to_rgb [bandA] = Except.ok img → ∃ c, img = [c, c, c]) ∧
    normalize_to_rgb bands4 = normalize_to_rgb (bands4.take 3) :=
  normalize_to_rgb_band_contract bandA bands4 (by decide)

theorem scale255_at_lo (lo hi : ℚ) : scale255 lo hi lo = 0 := by
  simp [scale255]

theorem scale255_at_hi (lo hi : ℚ) (h : lo ≠ hi) : scale255 lo hi hi = 255 := by
  have hsub : hi - lo ≠ 0 := sub_ne_zero.mpr (Ne.symm h)
  have h255 : 255 * (hi - lo) / (hi - lo) = (255 : ℚ) := by
    rw [mul_div_assoc, div_self hsub, mul_one]
  have hround : round ((255 : ℚ)) = (255 : ℤ) := by
    rw [show (255 : ℚ) = ((255 : ℤ) : ℚ) by norm_num, round_intCast]
  simp [scale255, h255, hround]

/-- C4: for every band set whose retained samples are non-constant,
`normalize_to_rgb` succeeds with the image obtained by scaling every sample
with the single global min and max over all retained samples combined
(`rgbOut`), and the output attains both extremes: some output sample equals
0 and some equals 255. -/
theorem normalize_to_rgb_extremes {H W : ℕ} (bands : List (Band H W))
    (hne : listMinD 0 (allSamples (selectBands bands)) ≠
      listMaxD 0 (allSamples (selectBands bands))) :
    normalize_to_rgb bands = Except.ok (rgbOut (selectBands bands)) ∧
    (∃ ch ∈ rgbOut (selectBands bands), ∃ i j, ch i j = 0) ∧
    (∃ ch ∈ rgbOut (selectBands bands), ∃ i j, ch i j = 255) := by
  have hsamp : allSamples (selectBands bands) ≠ [] := by
    intro hnil
    rw [hnil] at hne
    exact hne rfl
  have hok : normalize_to_rgb bands = Except.ok (rgbOut (selectBands bands)) := by
    rcases hsel : selectBands bands with _ | ⟨b, bs⟩
    · rw [hsel] at hsamp
      exact absurd rfl hsamp
    · rw [hsel] at hne
      simp only [normalize_to_rgb, hsel]
      rw [if_neg hne]
  refine ⟨hok, ?_, ?_⟩
  · have hlomem : listMinD 0 (allSamples (selectBands bands)) ∈ allSamples (selectBands bands) :=
      listMinD_mem hsamp 0
    obtain ⟨b0, hb0, i, j, hij⟩ := mem_allSamples.mp hlomem
    refine ⟨fun i j => scale255 (listMinD 0 (allSamples (selectBands bands)))
      (listMaxD 0 (allSamples (selectBands bands))) (b0 i j),
      List.mem_map_of_mem _ hb0, i, j, ?_⟩
    simp only [hij]
    exact scale255_at_lo _ _
  · have hhimem : listMaxD 0 (allSamples (selectBands bands)) ∈ allSamples (selectBands bands) :=
      listMaxD_mem hsamp 0
    obtain ⟨b0, hb0, i, j, hij⟩ := mem_allSamples.mp hhimem
    refine ⟨fun i j => scale255 (listMinD 0 (allSamples (selectBands bands)))
      (listMaxD 0 (allSamples (selectBands bands))) (b0 i j),
      List.mem_map_of_mem _ hb0, i, j, ?_⟩
    simp only [hij]
    exact scale255_at_hi _ _ hne

/-- Witness for C4: the concrete non-constant band `bandA` satisfies the
non-degeneracy hypothesis, and its normalized image attains 0 and 255. -/
theorem normalize_to_rgb_extremes_witness :
    normalize_to_rgb [bandA] = Except.ok (rgbOut (selectBands [bandA])) ∧
    (∃ ch ∈ rgbOut (selectBands [bandA]), ∃ i j, ch i j = 0) ∧
    (∃ ch ∈ rgbOut (selectBands [bandA]), ∃ i j, ch i j = 255) :=
  normalize_to_rgb_extremes [bandA] (by decide)

/-- C6: `normalize_to_rgb` signals `DegenerateImageError` exactly when the
input has no bands or the global max of the retained samples equals the
global min; otherwise it returns an image without error. -/
theorem normalize_to_rgb_error_iff {H W : ℕ} (bands : List (Band H W)) :
    (∃ e, normalize_to_rgb bands = Except.error e) ↔
      (bands = [] ∨ listMinD 0 (allSamples (selectBands bands)) =
        listMaxD 0 (allSamples (selectBands bands))) := by
  rcases hsel : selectBands bands with _ | ⟨b, bs⟩
  · have hnil : bands = [] := by
      rcases bands with _ | ⟨b1, _ | ⟨b2, rest⟩⟩
      · rfl
      · simp [selectBands] at hsel
      · simp [selectBands] at hsel
    subst hnil
    exact iff_of_true ⟨DegenerateImageError.degenerate, rfl⟩ (Or.inl rfl)
  · have hbne : bands ≠ [] := by
      intro hnil
      subst hnil
      simp [selectBands] at hsel
    by_cases hq : listMinD 0 (allSamples (b :: bs)) = listMaxD 0 (allSamples (b :: bs))
    · refine iff_of_true ⟨DegenerateImageError.degenerate, ?_⟩ (Or.inr hq)
      simp only [normalize_to_rgb, hsel]
      rw [if_pos hq]
    · refine iff_of_false ?_ ?_
      · rintro ⟨e, he⟩
        simp only [normalize_to_rgb, hsel] at he
        rw [if_neg hq] at he
        exact Except.noConfusion he
      · rintro (hnil | heq)
        · exact hbne hnil
        · exact hq heq

/-! ## Nearest-pump analysis (`add_nearest_pump_analysis`,
`johnsnow_dashboard_app.py` lines 98-119) -/

/-- A 2D point geometry (a projected coordinate pair). -/
structure PtR where
  x : ℝ
  y : ℝ

/-- Euclidean distance between two point geometries (shapely
`Point.distance`). -/
noncomputable def distR (p q : PtR) : ℝ :=
  Real.sqrt ((p.x - q.x) ^ 2 + (p.y - q.y) ^ 2)

/-- Embedding of shapely `nearest_points(pt, unary_union)` restricted to its
second result: the member of the pump geometry list closest to `pt` (the
union of point geometries is their multipoint, whose nearest point to `pt`
is the closest member; ties keep the earlier one). -/
noncomputable def nearestGeom (pt : PtR) (q : PtR) (qs : List PtR) : PtR :=
  qs.foldl (fun best c => if distR pt c < distR pt best then c else best) q

/-- Embedding of `add_nearest_pump_analysis` (lines 98-119), restricted to
the `distance_to_pump_m` column it computes: both layers are reprojected to
EPSG:3857 (the abstract map `proj`), and each death row receives the
distance from its projected point to the nearest projected pump geometry.
An empty pump layer has no unary union, so no result. -/
noncomputable def add_nearest_pump_analysis (proj : PtR → PtR)
    (deaths pumps : List PtR) : Option (List ℝ) :=
  match pumps.map proj with
  | [] => none
  | q :: qs => some (deaths.map (fun d => distR (proj d) (nearestGeom (proj d) q qs)))

theorem dist_nearestGeom (pt : PtR) (q : PtR) (qs : List PtR) :
    distR pt (nearestGeom pt q qs) =
      (qs.map (fun c => distR pt c)).foldl min (distR pt q) := by
  induction qs generalizing q with
  | nil => rfl
  | cons c cs ih =>
      simp only [nearestGeom, List.foldl_cons, List.map_cons]
      by_cases h : distR pt c < distR pt q
      · rw [if_pos h, min_comm, min_eq_left h.le]
        have ih2 := ih c
        simp only [nearestGeom] at ih2
        exact ih2
      · rw [if_neg h, min_eq_left (not_lt.mp h)]
        have ih2 := ih q
        simp only [nearestGeom] at ih2
        exact ih2

/-- C8: for a non-empty pump layer, `add_nearest_pump_analysis` sets the
distance of each death row to the minimum, over all pump geometries, of the
distance between the death point and the pump, both reprojected by `proj`
(EPSG:3857): the nearest geometry in the pump union is the globally closest
pump. -/
theorem add_nearest_pump_analysis_min_distance (proj : PtR → PtR)
    (deaths : List PtR) (p0 : PtR) (ps : List PtR) :
    add_nearest_pump_analysis proj deaths (p0 :: ps) =
      some (deaths.map (fun d =>
        listMinD 0 ((p0 :: ps).map (fun p => distR (proj d) (proj p))))) := by
  simp only [add_nearest_pump_analysis, List.map_cons, Option.some.injEq]
  apply List.map_congr_left
  intro d _
  rw [dist_nearestGeom]
  simp only [listMinD, List.map_cons]
  rw [List.map_map]
  rfl

/-! ## Vector loading (`load_vectors`, `johnsnow_dashboard_app.py`
lines 66-92) -/

/-- One cell of the death-count attribute column: a numeric value, a
missing value (NaN), or a non-numeric entry. -/
inductive Cell where
  | num (q : ℚ)
  | nan
  | text (s : String)
deriving DecidableEq

/-- Embedding of `pd.to_numeric(col, errors="coerce")` on one cell:
non-numeric entries and missing values are coerced to NaN (`none`). -/
def to_numeric_coerce : Cell → Option ℚ
  | Cell.num q => some q
  | Cell.nan => none
  | Cell.text _ => none

/-- Embedding of `.fillna(0)` on one coerced cell. -/
def fillna_zero (o : Option ℚ) : ℚ := o.getD 0

/-- Embedding of `.astype(int)` on one value: truncation toward zero. -/
def astype_int (q : ℚ) : ℤ := if 0 ≤ q then ⌊q⌋ else ⌈q⌉

/-- Embedding of line 79: coerce the death column to numeric, fill missing
values with 0 and cast to int. -/
def clean_deaths (col : List Cell) : List ℤ :=
  col.map (fun c => astype_int (fillna_zero (to_numeric_coerce c)))

/-- The deaths attribute table: its column names and, per column name, the
cell values of that column (the geometry and CRS handling of lines 81-84 is
orthogonal to the death-count pipeline and is not modelled). -/
structure VectorFrame where
  cols : List String
  colData : String → List Cell

/-- Embedding of lines 71-77: the death-count column is `"deaths"` when
present, else `"Count"` when present, else there is no deaths field. -/
def pick_death_col (cols : List String) : Option String :=
  if "deaths" ∈ cols then some "deaths"
  else if "Count" ∈ cols then some "Count"
  else none

/-- Embedding of `load_vectors` (lines 66-92) restricted to the death-count
column it selects and cleans: `none` models the early `return None` (after
`st.error`), which makes the caller stop the app (lines 88-90). -/
def load_vectors (deaths : VectorFrame) : Option (List ℤ × String) :=
  match pick_death_col deaths.cols with
  | none => none
  | some c => some (clean_deaths (deaths.colData c), c)

/-- C9: `load_vectors` returns `none` exactly when the deaths layer has
neither a `"deaths"` nor a `"Count"` column; when `"deaths"` is present it
is preferred as the death-count column. -/
theorem load_vectors_none_iff (f : VectorFrame) :
    (load_vectors f = none ↔ ("deaths" ∉ f.cols ∧ "Count" ∉ f.cols)) ∧
    ("deaths" ∈ f.cols → ∃ out, load_vectors f = some (out, "deaths")) := by
  constructor
  · constructor
    · intro h
      by_cases hd : "deaths" ∈ f.cols
      · simp [load_vectors, pick_death_col, hd] at h
      · by_cases hc : "Count" ∈ f.cols
        · simp [load_vectors, pick_death_col, hd, hc] at h
        · exact ⟨hd, hc⟩
    · rintro ⟨hd, hc⟩
      simp [load_vectors, pick_death_col, hd, hc]
  · intro hd
    exact ⟨clean_deaths (f.colData "deaths"), by simp [load_vectors, pick_death_col, hd]⟩

theorem astype_int_intCast (z : ℤ) : astype_int ((z : ℚ)) = z := by
  by_cases h : (0 : ℚ) ≤ (z : ℚ)
  · simp [astype_int, h]
  · simp [astype_int, h]

/-- C10: after a successful `load_vectors`, the returned death-count column
is the cleaned column: missing and non-numeric cells become 0, numeric
cells are truncated to integers, and integer cells pass through unchanged,
so every downstream value is an integer and none is missing. -/
theorem load_vectors_death_col_integral (f : VectorFrame) (out : List ℤ) (c : String)
    (h : load_vectors f = some (out, c)) :
    out = clean_deaths (f.colData c) ∧
    out.length = (f.colData c).length ∧
    ∀ i (hi : i < out.length) (hic : i < (f.colData c).length),
      ((f.colData c).get ⟨i, hic⟩ = Cell.nan → out.get ⟨i, hi⟩ = 0) ∧
      (∀ s, (f.colData c).get ⟨i, hic⟩ = Cell.text s → out.get ⟨i, hi⟩ = 0) ∧
      (∀ q, (f.colData c).get ⟨i, hic⟩ = Cell.num q → out.get ⟨i, hi⟩ = astype_int q) ∧
      (∀ z : ℤ, (f.colData c).get ⟨i, hic⟩ = Cell.num ((z : ℚ)) → out.get ⟨i, hi⟩ = z) := by
  have hout : out = clean_deaths (f.colData c) := by
    rcases hp : pick_death_col f.cols with _ | c2
    · simp [load_vectors, hp] at h
    · simp only [load_vectors, hp, Option.some.injEq, Prod.mk.injEq] at h
      rw [← h.1, h.2]
  subst hout
  refine ⟨rfl, by simp [clean_deaths], ?_⟩
  intro i hi hic
  have hget : (clean_deaths (f.colData c)).get ⟨i, hi⟩ =
      astype_int (fillna_zero (to_numeric_coerce ((f.colData c).get ⟨i, hic⟩))) := by
    simp [clean_deaths]
  refine ⟨?_, ?_, ?_, ?_⟩
  · intro hcell
    rw [hget, hcell]
    rfl
  · intro s hcell
    rw [hget, hcell]
    rfl
  · intro q hcell
    rw [hget, hcell]
    rfl
  · intro z hcell
    rw [hget, hcell]
    exact astype_int_intCast z

/-- A concrete deaths table with a `"deaths"` column holding a numeric, a
missing and a non-numeric cell. -/
def frame0 : VectorFrame where
  cols := ["deaths"]
  colData := fun s => if s = "deaths" then [Cell.num 3, Cell.nan, Cell.text "x"] else []

/-- Witness for C10: on the concrete table, `load_vectors` succeeds with the
cleaned `"deaths"` column, whose length matches the input column. -/
theorem load_vectors_death_col_integral_witness :
    load_vectors frame0 = some (clean_deaths (frame0.colData "deaths"), "deaths") ∧
    (clean_deaths (frame0.colData "deaths")).length = (frame0.colData "deaths").length := by
  have h : load_vectors frame0 = some (clean_deaths (frame0.colData "deaths"), "deaths") := by
    simp [load_vectors, pick_death_col, frame0]
  exact ⟨h, (load_vectors_death_col_integral frame0 _ "deaths" h).2.1⟩
